import Mathlib

/-!
Verification of the `cmd/crypto` KMS layer (canonical context encoding,
key derivation, envelope seal/unseal, reference master-key backend).

Shallow embedding of the Go source:

* `Context` (a Go `map[string]string`) is modelled as an association list —
  the map's iteration order — whose keys are pairwise distinct
  (`Context.NodupKeys`).
* `Context.WriteTo` and `Context.AppendTo` are modelled as pure functions
  producing the written/appended bytes (Go strings are byte strings; a Lean
  `String` models them, equality of outputs is byte-identity).
* Go's `sort.Strings` / `sort.Sort(sort.StringSlice)` sorts ascending; any
  correct sort returns the unique `≤`-sorted permutation, modelled by
  `List.insertionSort`.
* The external trusted primitives (HMAC-SHA-256 via `crypto/hmac` +
  `sha256.New`, and the `sio` authenticated encryption) are not part of this
  repository; they are abstracted as parameters (`Primitives`), with their
  documented contracts taken as hypotheses where a claim needs them.
-/

namespace Crypto

/-- `type Context map[string]string`: modelled as the association list of the
map's entries in iteration order; a Go map never holds two entries with the
same key (`Context.NodupKeys`). -/
abbrev Context : Type := List (String × String)

/-- The Go map invariant: keys are pairwise distinct. -/
def Context.NodupKeys (c : Context) : Prop :=
  (List.map Prod.fst c).Nodup

/-- The map's keys in iteration order (`for k := range c`). -/
def Context.keys (c : Context) : List String :=
  List.map Prod.fst c

/-- Go map indexing `c[k]`: the stored value, or the zero value `""` when the
key is absent. -/
def Context.get (c : Context) (k : String) : String :=
  match List.find? (fun p => p.1 == k) c with
  | some p => p.2
  | none => ""

/-- Go's byte-wise `<=` on strings: lexicographic comparison of the UTF-8
bytes. UTF-8 encoding preserves code-point order, so this coincides with the
lexicographic order on the character sequences, which is how it is modelled. -/
def strLe (a b : String) : Prop :=
  a.data ≤ b.data

instance : DecidableRel strLe :=
  fun a b => inferInstanceAs (Decidable (a.data ≤ b.data))

instance : IsTrans String strLe :=
  ⟨fun _ _ _ h1 h2 => le_trans h1 h2⟩

instance : IsTotal String strLe :=
  ⟨fun a b => le_total a.data b.data⟩

instance : IsAntisymm String strLe :=
  ⟨fun _ _ h1 h2 => String.toList_inj.mp (le_antisymm h1 h2)⟩

/-- `sort.Strings(l)` (and `sort.Sort(sort.StringSlice(l))`): ascending
byte-wise sort; the result of any correct sort is the unique sorted
permutation of `l`, modelled by insertion sort. -/
def sortStrings (l : List String) : List String :=
  List.insertionSort strLe l

/-- The body of `Context.WriteTo`'s loop over the sorted keys: for each key it
writes `fmt.Sprintf("\x7b%s\x7d:\x7b%s\x7d,", k, c[k])` (quotes around key and
value, a trailing comma) and slices the trailing comma off for the last key —
modelled by appending the comma only when more keys follow. -/
def Context.writeToLoop (c : Context) : List String → String
  | [] => ""
  | k :: ks =>
      ("\"" ++ k ++ "\":\"" ++ c.get k ++ "\"" ++ (if ks.isEmpty then "" else ","))
        ++ Context.writeToLoop c ks

/-- `Context.WriteTo` on a writer that never fails: the byte sequence written.
The Go method collects the keys, sorts them, writes `{`, the loop of
`Context.writeToLoop`, then `}`. -/
def Context.writeTo (c : Context) : String :=
  "\x7b" ++ c.writeToLoop (sortStrings c.keys) ++ "\x7d"

/-- The general (`len(c) >= 2`) loop of `Context.AppendTo`: for each sorted key
it writes `"` , the key, `":"`, the value, `"`, and a `,` when more keys
follow. -/
def Context.appendToLoop (c : Context) : List String → String
  | [] => ""
  | k :: ks =>
      ("\"" ++ k ++ "\":\"" ++ c.get k ++ "\"" ++ (if ks.isEmpty then "" else ","))
        ++ Context.appendToLoop c ks

/-- `Context.AppendTo dst`: appends the canonical encoding to `dst`.
`len(c) == 0` appends `{}`; `len(c) == 1` takes the fast path that iterates
over the single entry without sorting; otherwise the keys are sorted and the
general loop runs between `{` and `}`. -/
def Context.appendTo (c : Context) (dst : String) : String :=
  match c with
  | [] => dst ++ "\x7b\x7d"
  | [(k, v)] => dst ++ ("\x7b\"" ++ k ++ "\":\"" ++ v ++ "\"\x7d")
  | _ => dst ++ ("\x7b" ++ c.appendToLoop (sortStrings c.keys) ++ "\x7d")

/-- Sorting depends only on the multiset of keys: permuted key lists sort to
the same list, the unique `strLe`-sorted permutation. -/
theorem sortStrings_congr {l1 l2 : List String} (h : l1.Perm l2) :
    sortStrings l1 = sortStrings l2 :=
  List.eq_of_perm_of_sorted
    ((List.perm_insertionSort strLe l1).trans (h.trans (List.perm_insertionSort strLe l2).symm))
    (List.sorted_insertionSort strLe l1)
    (List.sorted_insertionSort strLe l2)

/-- Map lookup depends only on the entries: two permuted contexts whose keys
are distinct store the same value at every key. -/
theorem Context.get_congr {c1 c2 : Context} (hp : List.Perm c1 c2)
    (hnd : c1.NodupKeys) (k : String) : c1.get k = c2.get k := by
  cases h1 : List.find? (fun p => p.1 == k) c1 with
  | none =>
      cases h2 : List.find? (fun p => p.1 == k) c2 with
      | none => simp [Context.get, h1, h2]
      | some q =>
          exact absurd (List.find?_some h2)
            (List.find?_eq_none.mp h1 q (hp.mem_iff.mpr (List.mem_of_find?_eq_some h2)))
  | some p =>
      cases h2 : List.find? (fun p => p.1 == k) c2 with
      | none =>
          exact absurd (List.find?_some h1)
            (List.find?_eq_none.mp h2 p (hp.mem_iff.mp (List.mem_of_find?_eq_some h1)))
      | some q =>
          have hpmem : p ∈ c1 := List.mem_of_find?_eq_some h1
          have hqmem : q ∈ c1 := hp.mem_iff.mpr (List.mem_of_find?_eq_some h2)
          have hpk : p.1 = k := by simpa using List.find?_some h1
          have hqk : q.1 = k := by simpa using List.find?_some h2
          have hpq : p = q :=
            List.inj_on_of_nodup_map hnd hpmem hqmem (hpk.trans hqk.symm)
          simp [Context.get, h1, h2, hpq]

/-- The `WriteTo` loop output depends only on the values the context stores at
the listed keys. -/
theorem Context.writeToLoop_congr {c1 c2 : Context} (h : ∀ k, c1.get k = c2.get k) :
    ∀ ks, c1.writeToLoop ks = c2.writeToLoop ks
  | [] => rfl
  | k :: ks => by
      simp only [Context.writeToLoop, h k, Context.writeToLoop_congr h ks]

/-- The general `AppendTo` loop writes exactly the bytes the `WriteTo` loop
writes, key for key. -/
theorem Context.appendToLoop_eq_writeToLoop (c : Context) :
    ∀ ks, c.appendToLoop ks = c.writeToLoop ks
  | [] => rfl
  | k :: ks => by
      simp only [Context.appendToLoop, Context.writeToLoop,
        Context.appendToLoop_eq_writeToLoop c ks]

/-- On a single-key context the lookup of that key returns its value. -/
theorem Context.get_single (k v : String) : Context.get [(k, v)] k = v := by
  simp [Context.get, List.find?]

/-- `AppendTo dst` appends exactly the bytes `WriteTo` writes, after `dst`:
the three `AppendTo` branches (empty, single-entry fast path, general sorted
path) all agree with the stream form. -/
theorem Context.appendTo_shift (c : Context) (dst : String) :
    c.appendTo dst = dst ++ c.writeTo := by
  cases c with
  | nil =>
      apply String.ext
      simp [Context.appendTo, Context.writeTo, Context.writeToLoop, sortStrings,
        Context.keys, List.insertionSort, String.data_append]
  | cons hd tl =>
      cases tl with
      | nil =>
          obtain ⟨k, v⟩ := hd
          apply String.ext
          simp [Context.appendTo, Context.writeTo, Context.writeToLoop, sortStrings,
            Context.keys, List.insertionSort, List.orderedInsert,
            Context.get_single, String.data_append]
      | cons hd2 tl2 =>
          show dst ++ _ = dst ++ _
          rw [Context.writeTo, Context.appendToLoop_eq_writeToLoop]

instance (c : Context) : Decidable c.NodupKeys :=
  inferInstanceAs (Decidable (List.map Prod.fst c).Nodup)

/-- C3: two `Context` values holding exactly the same key/value pairs — one a
permutation of the other, keys distinct as in any Go map — serialize to
byte-identical canonical encodings under both `WriteTo` and `AppendTo`,
regardless of construction/iteration order. -/
theorem context_canonical_encoding_deterministic {c1 c2 : Context}
    (hp : List.Perm c1 c2) (hnd : c1.NodupKeys) :
    c1.writeTo = c2.writeTo ∧ ∀ dst, c1.appendTo dst = c2.appendTo dst := by
  have hget : ∀ k, c1.get k = c2.get k := Context.get_congr hp hnd
  have hsort : sortStrings c1.keys = sortStrings c2.keys :=
    sortStrings_congr (hp.map Prod.fst)
  have hw : c1.writeTo = c2.writeTo := by
    rw [Context.writeTo, Context.writeTo, hsort, Context.writeToLoop_congr hget]
  exact ⟨hw, fun dst => by
    rw [Context.appendTo_shift, Context.appendTo_shift, hw]⟩

/-- Witness for C3: `{"a":"1","b":"2"}` built in the two insertion orders. -/
theorem context_canonical_encoding_deterministic_witness :
    List.Perm ([("b", "2"), ("a", "1")] : Context) [("a", "1"), ("b", "2")] ∧
    Context.NodupKeys [("b", "2"), ("a", "1")] ∧
    Context.writeTo [("b", "2"), ("a", "1")] = Context.writeTo [("a", "1"), ("b", "2")] ∧
    Context.appendTo [("b", "2"), ("a", "1")] "" = Context.appendTo [("a", "1"), ("b", "2")] "" :=
  ⟨by decide, by decide,
    (context_canonical_encoding_deterministic (by decide) (by decide)).1,
    (context_canonical_encoding_deterministic (by decide) (by decide)).2 ""⟩

/-- C4: the stream form and the buffer form agree with no semantic
difference: `AppendTo` appends beyond the supplied `dst` exactly the bytes
`WriteTo` writes; in particular, on single-entry contexts the fast path that
skips sorting produces output identical to the general sorted path. -/
theorem appendTo_refines_writeTo :
    (∀ (c : Context) (dst : String), c.appendTo dst = dst ++ c.writeTo) ∧
    (∀ k v dst : String,
      Context.appendTo [(k, v)] dst
        = dst ++ ("\x7b" ++ Context.appendToLoop [(k, v)]
            (sortStrings (Context.keys [(k, v)])) ++ "\x7d")) := by
  refine ⟨Context.appendTo_shift, fun k v dst => ?_⟩
  rw [Context.appendTo_shift, Context.appendToLoop_eq_writeToLoop]
  rfl

/-! ## The reference master-key KMS backend -/

/-- Go `[]byte` / `[32]byte` values: lists of bytes (each a `Nat`, < 256 for
real byte strings; no claim here depends on the bound). -/
abbrev Bytes : Type := List Nat

/-- `[]byte(s)`: the UTF-8 bytes of a Go string. -/
def strBytes (s : String) : Bytes :=
  (s.data.flatMap String.utf8EncodeChar).map (fun b => b.toNat)

/-- The external trusted primitives, which are not code of this repository:
`crypto/hmac` with `sha256.New` as a function of key and message (successive
`mac.Write` calls MAC the concatenation of their arguments, `mac.Sum`
produces the digest), and the `sio` authenticated encryption on whole
buffers — `sio.Encrypt` into a fresh buffer and `sio.DecryptBuffer` — where
`none` models a failed call (non-`nil` error). -/
structure Primitives where
  hmacSha256 : Bytes → Bytes → Bytes
  sioEncrypt : Bytes → Bytes → Option Bytes
  sioDecrypt : Bytes → Bytes → Option Bytes

/-- `type masterKeyKMS struct { keyID string; masterKey [32]byte }` -/
structure masterKeyKMS where
  keyID : String
  masterKey : Bytes

/-- `KMSInfo` with `Endpoints`, `Name` and `AuthType`. -/
structure KMSInfo where
  Endpoints : List String
  Name : String
  AuthType : String

/-- `NewMasterKey(keyID, key)` returns `&masterKeyKMS{keyID: keyID, masterKey: key}`. -/
def NewMasterKey (keyID : String) (key : Bytes) : masterKeyKMS :=
  { keyID := keyID, masterKey := key }

/-- `masterKeyKMS.DefaultKeyID` returns the stored `kms.keyID`. -/
def masterKeyKMS.DefaultKeyID (kms : masterKeyKMS) : String :=
  kms.keyID

/-- `masterKeyKMS.CreateKey` always returns
`errors.New("crypto: creating keys is not supported by a static master key")`. -/
def masterKeyKMS.CreateKey (_kms : masterKeyKMS) (_keyID : String) : Except String Unit :=
  Except.error "crypto: creating keys is not supported by a static master key"

/-- `masterKeyKMS.Info` reports empty endpoints, empty name, auth type
`"master-key"`. -/
def masterKeyKMS.Info (_kms : masterKeyKMS) : KMSInfo :=
  { Endpoints := [], Name := "", AuthType := "master-key" }

/-- `masterKeyKMS.deriveKey`: a `nil` context (modelled `none`) is replaced by
the empty `Context` first; then HMAC-SHA-256 keyed by `kms.masterKey` is
written the `keyID` bytes followed by `context.AppendTo(make([]byte, 0, 128))`
(the canonical encoding appended to an empty slice), and `mac.Sum(key[:0])`
fills the 32-byte result with the digest. -/
def masterKeyKMS.deriveKey (P : Primitives) (kms : masterKeyKMS)
    (keyID : String) (ctx : Option Context) : Bytes :=
  P.hmacSha256 kms.masterKey (strBytes keyID ++ strBytes ((ctx.getD []).appendTo ""))

/-- `masterKeyKMS.GenerateKey`: `randomKey` is the 32-byte draw from
`rand.Reader` (a failed draw hits `logger.CriticalIf(errOutOfEntropy)`, a
fatal path that never returns a result and is outside this function of the
successful draw). The data key is sealed with
`sio.Encrypt(&buffer, bytes.NewReader(key[:]), sio.Config{Key: derivedKey[:]})`;
an encryption error or a written length `n != 64` hits `logger.CriticalIf`,
fatal again, modelled as `none` — no normal return. Otherwise the plaintext
key and `buffer.Bytes()` are returned. -/
def masterKeyKMS.GenerateKey (P : Primitives) (kms : masterKeyKMS)
    (keyID : String) (ctx : Option Context) (randomKey : Bytes) :
    Option (Bytes × Bytes) :=
  match P.sioEncrypt (kms.deriveKey P keyID ctx) randomKey with
  | none => none
  | some sealedKey =>
      if sealedKey.length = 64 then some (randomKey, sealedKey) else none

/-- Go `append` into `key[:0]`, the empty slice over the zeroed `[32]byte`
array `key`: when the appended bytes fit the capacity 32 they are written in
place and the array holds them zero-padded; when they do not, `append`
reallocates and the array stays zeroed. -/
def goKeyArray (out : Bytes) : Bytes :=
  if out.length ≤ 32 then out ++ List.replicate (32 - out.length) 0
  else List.replicate 32 0

/-- `masterKeyKMS.UnsealKey`:
`out, err := sio.DecryptBuffer(key[:0], sealedKey, sio.Config{Key: derivedKey[:]})`
followed by `if err != nil || len(out) != 32 { return key, err }; return key, nil`.
A decryption error (`none`) surfaces as the returned error. When decryption
succeeds, **both** remaining paths return the `nil` error: the guard taken
with `len(out) != 32` returns `key, err` where `err` is `nil`, so the caller
sees a normal result with the array contents `goKeyArray out`; the fall-through
returns `key, nil` with the array holding the 32 plaintext bytes. -/
def masterKeyKMS.UnsealKey (P : Primitives) (kms : masterKeyKMS)
    (keyID : String) (sealedKey : Bytes) (ctx : Option Context) :
    Except Unit Bytes :=
  match P.sioDecrypt (kms.deriveKey P keyID ctx) sealedKey with
  | none => Except.error ()
  | some out =>
      if out.length = 32 then Except.ok out else Except.ok (goKeyArray out)

/-- One invocation of a `KMS` interface method with its arguments (the random
draw of `GenerateKey` included, so a call is a pure step). -/
inductive KMSCall where
  | defaultKeyID : KMSCall
  | createKey (keyID : String) : KMSCall
  | generateKey (keyID : String) (ctx : Option Context) (randomKey : Bytes) : KMSCall
  | unsealKey (keyID : String) (sealedKey : Bytes) (ctx : Option Context) : KMSCall
  | info : KMSCall

/-- The outcome a caller observes from one call. -/
inductive KMSOutcome where
  | str (s : String)
  | created (r : Except String Unit)
  | generated (r : Option (Bytes × Bytes))
  | unsealed (r : Except Unit Bytes)
  | described (i : KMSInfo)

/-- Dispatch of one interface call on the reference backend: the method body
runs on the receiver and the pair (receiver state after the body, outcome) is
returned. None of the Go method bodies assigns to the receiver's fields, so
the post-state is the receiver as the methods leave it. -/
def masterKeyKMS.call (P : Primitives) (kms : masterKeyKMS) :
    KMSCall → masterKeyKMS × KMSOutcome
  | .defaultKeyID => (kms, .str kms.DefaultKeyID)
  | .createKey keyID => (kms, .created (kms.CreateKey keyID))
  | .generateKey keyID ctx randomKey =>
      (kms, .generated (kms.GenerateKey P keyID ctx randomKey))
  | .unsealKey keyID sealedKey ctx =>
      (kms, .unsealed (kms.UnsealKey P keyID sealedKey ctx))
  | .info => (kms, .described kms.Info)

/-- Running a sequence of calls from a backend state: the state after all the
calls. -/
def runCalls (P : Primitives) (kms : masterKeyKMS) (calls : List KMSCall) : masterKeyKMS :=
  List.foldl (fun s c => (masterKeyKMS.call P s c).1) kms calls

/-! ## A concrete primitives instance, for checking the abstract theorems at
concrete inputs -/

/-- A computable stand-in for the trusted primitives: the keyed hash pads and
cuts the message to 32 bytes; the cipher prefixes the plaintext with the
32-byte key, and decryption demands exactly that 32-byte key at the head of
the ciphertext. It satisfies the 32-byte-digest, decrypt-of-encrypt and
wrong-key-rejection contracts (`refPrims_hmac_len`, `refPrims_decrypt_encrypt`,
`refPrims_wrong_key`). -/
def refPrims : Primitives where
  hmacSha256 := fun _ msg => (msg ++ List.replicate 32 0).take 32
  sioEncrypt := fun key m => if key.length = 32 then some (key ++ m) else none
  sioDecrypt := fun key c =>
    if key.length = 32 ∧ c.take 32 = key then some (c.drop 32) else none

/-- `refPrims` meets the digest-length contract of SHA-256-based HMAC. -/
theorem refPrims_hmac_len (key msg : Bytes) : (refPrims.hmacSha256 key msg).length = 32 := by
  simp [refPrims]

/-- `refPrims` meets the decrypt-of-encrypt contract. -/
theorem refPrims_decrypt_encrypt (k m c : Bytes) (h : refPrims.sioEncrypt k m = some c) :
    refPrims.sioDecrypt k c = some m := by
  simp only [refPrims] at h ⊢
  by_cases hk : k.length = 32
  · rw [if_pos hk] at h
    injection h with h
    subst h
    have htake : (k ++ m).take 32 = k := by rw [← hk]; exact List.take_left k m
    rw [if_pos ⟨hk, htake⟩, ← hk, List.drop_left]
  · rw [if_neg hk] at h
    cases h

/-- `refPrims` rejects decryption under any key other than the sealing key. -/
theorem refPrims_wrong_key (k m c k2 : Bytes) (h : refPrims.sioEncrypt k m = some c)
    (hne : k2 ≠ k) : refPrims.sioDecrypt k2 c = none := by
  simp only [refPrims] at h ⊢
  by_cases hk : k.length = 32
  · rw [if_pos hk] at h
    injection h with h
    subst h
    rw [if_neg]
    rintro ⟨hk2, htake⟩
    have hkk : (k ++ m).take 32 = k := by rw [← hk]; exact List.take_left k m
    exact hne (htake.symm.trans hkk)
  · rw [if_neg hk] at h
    cases h

/-- The backend of the spec scenario: key ID `"default"`, master key of 32
zero bytes. -/
def kms0 : masterKeyKMS := NewMasterKey "default" (List.replicate 32 0)

/-- The key `kms0` derives for key ID `"default"` and no context, under
`refPrims`. -/
def dk0 : Bytes := masterKeyKMS.deriveKey refPrims kms0 "default" none

/-- The sealed blob `refPrims` produces for the 32-byte data key `7,7,...,7`
under `dk0`. -/
def sealed0 : Bytes := dk0 ++ List.replicate 32 7

/-! ## The claims about the master-key backend -/

/-- C1: refuted by the code. The guard
`if err != nil || len(out) != 32 { return key, err }` returns the `err` it
already knows to be `nil` on the length-mismatch branch: when authenticated
decryption under the derived key succeeds but the recovered plaintext is 16
bytes rather than 32 (the blob seals a 16-byte payload under the very same
derived key, first conjunct), `UnsealKey` returns a normal, non-error result
holding the zero-padded key array — not an unseal error as the claim
states. -/
theorem unsealKey_ok_on_short_plaintext :
    refPrims.sioEncrypt dk0 (List.replicate 16 7) = some (dk0 ++ List.replicate 16 7) ∧
    masterKeyKMS.UnsealKey refPrims kms0 "default" (dk0 ++ List.replicate 16 7) none
      = Except.ok (List.replicate 16 7 ++ List.replicate 16 0) := by
  exact ⟨by decide, rfl⟩

/-- C2: round trip. Whenever `GenerateKey` returns normally with data key
`key` and blob `sealed`, and the authenticated-encryption primitive meets its
decrypt-of-encrypt contract, `UnsealKey` on the same key ID and context
recovers exactly `key` (the draw is the 32 bytes `io.ReadFull` supplies). -/
theorem unsealKey_roundtrip (P : Primitives) (kms : masterKeyKMS)
    (keyID : String) (ctx : Option Context) (randomKey key sealed : Bytes)
    (hgen : kms.GenerateKey P keyID ctx randomKey = some (key, sealed))
    (hrand : randomKey.length = 32)
    (hdec : ∀ k m c, P.sioEncrypt k m = some c → P.sioDecrypt k c = some m) :
    kms.UnsealKey P keyID sealed ctx = Except.ok key := by
  unfold masterKeyKMS.GenerateKey at hgen
  cases henc : P.sioEncrypt (kms.deriveKey P keyID ctx) randomKey with
  | none =>
      rw [henc] at hgen
      exact Option.noConfusion hgen
  | some s =>
      simp only [henc] at hgen
      by_cases h64 : s.length = 64
      · rw [if_pos h64] at hgen
        injection hgen with hgen
        injection hgen with h1 h2
        subst h1
        subst h2
        unfold masterKeyKMS.UnsealKey
        rw [hdec _ _ _ henc]
        dsimp only
        rw [if_pos hrand]
      · rw [if_neg h64] at hgen
        cases hgen

/-- Witness for C2: the spec scenario backend, key ID `"default"`, no
context, data key `7,...,7`. -/
theorem unsealKey_roundtrip_witness :
    kms0.GenerateKey refPrims "default" none (List.replicate 32 7)
        = some (List.replicate 32 7, sealed0) ∧
    (List.replicate 32 7 : Bytes).length = 32 ∧
    kms0.UnsealKey refPrims "default" sealed0 none = Except.ok (List.replicate 32 7) :=
  ⟨by decide, by decide,
    unsealKey_roundtrip refPrims kms0 "default" none (List.replicate 32 7)
      (List.replicate 32 7) sealed0 (by decide) (by decide) refPrims_decrypt_encrypt⟩

/-- Modelled from the spec (§4.4), for the refinement check of C5: a keyed
hash over the concatenation of the raw `keyID` bytes and the canonical
encoding of the context, keyed by the master key; an absent context is
replaced by the empty `Context` before encoding. -/
def deriveKeySpec (P : Primitives) (masterKey : Bytes) (keyID : String)
    (ctx : Option Context) : Bytes :=
  match ctx with
  | none => P.hmacSha256 masterKey (strBytes keyID ++ strBytes (Context.appendTo [] ""))
  | some c => P.hmacSha256 masterKey (strBytes keyID ++ strBytes (c.appendTo ""))

/-- C5: the derived key is exactly HMAC-SHA-256 keyed by the master key over
the `keyID` bytes followed by the canonical context encoding; it is 32 bytes
long whenever the hash primitive meets its 32-byte-digest contract; and a
`nil` context derives the same key as an empty context. -/
theorem deriveKey_matches_spec (P : Primitives) (kms : masterKeyKMS)
    (keyID : String) (ctx : Option Context)
    (hlen : ∀ key msg, (P.hmacSha256 key msg).length = 32) :
    kms.deriveKey P keyID ctx = deriveKeySpec P kms.masterKey keyID ctx ∧
    (kms.deriveKey P keyID ctx).length = 32 ∧
    kms.deriveKey P keyID none = kms.deriveKey P keyID (some []) := by
  refine ⟨?_, hlen _ _, rfl⟩
  cases ctx <;> rfl

/-- Witness for C5 at `refPrims`, `kms0`, key ID `"default"`, no context. -/
theorem deriveKey_matches_spec_witness :
    (∀ key msg, (refPrims.hmacSha256 key msg).length = 32) ∧
    kms0.deriveKey refPrims "default" none
        = deriveKeySpec refPrims kms0.masterKey "default" none ∧
    (kms0.deriveKey refPrims "default" none).length = 32 :=
  ⟨refPrims_hmac_len,
    (deriveKey_matches_spec refPrims kms0 "default" none refPrims_hmac_len).1,
    (deriveKey_matches_spec refPrims kms0 "default" none refPrims_hmac_len).2.1⟩

/-- C6: `GenerateKey` returns normally exactly when sealing succeeded with a
written length of 64 bytes, and then the returned blob is that 64-byte
output and the returned key is the 32-byte draw; an encryption error or any
other sealed length takes the fatal `logger.CriticalIf` path and never
becomes a normal result. -/
theorem generateKey_sealed_64 (P : Primitives) (kms : masterKeyKMS)
    (keyID : String) (ctx : Option Context) (randomKey key sealed : Bytes) :
    kms.GenerateKey P keyID ctx randomKey = some (key, sealed) ↔
      (P.sioEncrypt (kms.deriveKey P keyID ctx) randomKey = some sealed ∧
        sealed.length = 64 ∧ key = randomKey) := by
  unfold masterKeyKMS.GenerateKey
  cases henc : P.sioEncrypt (kms.deriveKey P keyID ctx) randomKey with
  | none => simp
  | some s =>
      dsimp only
      by_cases h64 : s.length = 64
      · rw [if_pos h64]
        constructor
        · intro h
          injection h with h
          injection h with h1 h2
          subst h1
          subst h2
          exact ⟨rfl, h64, rfl⟩
        · rintro ⟨hs, _, rfl⟩
          injection hs with hs
          rw [hs]
      · rw [if_neg h64]
        constructor
        · intro h; cases h
        · rintro ⟨hs, h64s, rfl⟩
          injection hs with hs
          exact absurd (hs ▸ h64s) h64

/-- Witness for C6: the spec scenario produces a 64-byte sealed blob. -/
theorem generateKey_sealed_64_witness :
    kms0.GenerateKey refPrims "default" none (List.replicate 32 7)
        = some (List.replicate 32 7, sealed0) ∧
    sealed0.length = 64 :=
  ⟨by decide,
    ((generateKey_sealed_64 refPrims kms0 "default" none (List.replicate 32 7)
        (List.replicate 32 7) sealed0).mp (by decide)).2.1⟩

/-- C7: binding. A blob generated under `(keyID, ctx)` fails to unseal under
`(keyID2, ctx2)` whenever the two derived keys differ and the primitive
rejects decryption under a wrong key: `UnsealKey` surfaces the decryption
error. -/
theorem unsealKey_binding (P : Primitives) (kms : masterKeyKMS)
    (keyID keyID2 : String) (ctx ctx2 : Option Context) (randomKey key sealed : Bytes)
    (hgen : kms.GenerateKey P keyID ctx randomKey = some (key, sealed))
    (hne : kms.deriveKey P keyID2 ctx2 ≠ kms.deriveKey P keyID ctx)
    (hrej : ∀ k m c k2, P.sioEncrypt k m = some c → k2 ≠ k → P.sioDecrypt k2 c = none) :
    kms.UnsealKey P keyID2 sealed ctx2 = Except.error () := by
  unfold masterKeyKMS.GenerateKey at hgen
  cases henc : P.sioEncrypt (kms.deriveKey P keyID ctx) randomKey with
  | none =>
      rw [henc] at hgen
      exact Option.noConfusion hgen
  | some s =>
      simp only [henc] at hgen
      by_cases h64 : s.length = 64
      · rw [if_pos h64] at hgen
        injection hgen with hgen
        injection hgen with h1 h2
        subst h2
        unfold masterKeyKMS.UnsealKey
        rw [hrej _ _ _ _ henc hne]
      · rw [if_neg h64] at hgen
        cases hgen

/-- Witness for C7: sealing under key ID `"default"` and unsealing under key
ID `"other"` (no context) on the spec scenario backend. -/
theorem unsealKey_binding_witness :
    kms0.GenerateKey refPrims "default" none (List.replicate 32 7)
        = some (List.replicate 32 7, sealed0) ∧
    kms0.deriveKey refPrims "other" none ≠ kms0.deriveKey refPrims "default" none ∧
    kms0.UnsealKey refPrims "other" sealed0 none = Except.error () :=
  ⟨by decide, by decide,
    unsealKey_binding refPrims kms0 "default" "other" none none (List.replicate 32 7)
      (List.replicate 32 7) sealed0 (by decide) (by decide) refPrims_wrong_key⟩

/-- C8: `CreateKey` on the reference backend always returns the
unsupported-operation error and never a success, for every key ID. -/
theorem createKey_always_unsupported (kms : masterKeyKMS) (keyID : String) :
    kms.CreateKey keyID
        = Except.error "crypto: creating keys is not supported by a static master key" ∧
    ∀ u : Unit, kms.CreateKey keyID ≠ Except.ok u :=
  ⟨rfl, fun _ h => Except.noConfusion h⟩

/-- Every single call leaves the backend state untouched: no method body
assigns to the receiver. -/
theorem call_state_fixed (P : Primitives) (kms : masterKeyKMS) (c : KMSCall) :
    (masterKeyKMS.call P kms c).1 = kms := by
  cases c <;> rfl

/-- Any sequence of calls leaves the backend state untouched. -/
theorem runCalls_state_fixed (P : Primitives) (kms : masterKeyKMS) (calls : List KMSCall) :
    runCalls P kms calls = kms := by
  induction calls generalizing kms with
  | nil => rfl
  | cons c cs ih =>
      show List.foldl _ _ _ = _
      rw [List.foldl_cons, call_state_fixed]
      exact ih kms

/-- C9: no KMS operation (`DefaultKeyID`, `CreateKey`, `GenerateKey`,
`UnsealKey`, `Info`) mutates the backend: each call returns the receiver
unchanged, so after every sequence of calls the stored key ID and master key
are what they were. -/
theorem kms_operations_no_mutation (P : Primitives) (kms : masterKeyKMS)
    (calls : List KMSCall) :
    (∀ c : KMSCall, (masterKeyKMS.call P kms c).1 = kms) ∧
    (runCalls P kms calls).keyID = kms.keyID ∧
    (runCalls P kms calls).masterKey = kms.masterKey :=
  ⟨call_state_fixed P kms, by rw [runCalls_state_fixed], by rw [runCalls_state_fixed]⟩

/-- C10: `DefaultKeyID` on the backend `NewMasterKey keyID key` returns
exactly `keyID`, and still returns it after any sequence of other
operations. -/
theorem defaultKeyID_of_newMasterKey (P : Primitives) (keyID : String) (key : Bytes)
    (calls : List KMSCall) :
    (NewMasterKey keyID key).DefaultKeyID = keyID ∧
    (runCalls P (NewMasterKey keyID key) calls).DefaultKeyID = keyID :=
  ⟨rfl, by rw [runCalls_state_fixed]; rfl⟩

end Crypto
